import Mathlib

/-!
Verification of the AgentForge TODO tool suite and its agent/tool runtime
contracts. The CRUD leaf tools and the nested TODO orchestrator tool are
embedded directly from `src/AgentForge/tools/todo_tool.py`; the database
session is modelled as the list of persisted `TodoItem` rows that the
SQLAlchemy queries in that file filter over. Components of the framework
that the claims reference but whose sources are not in the repository
snapshot (`with_session`, `MessageStorage`, the `Agent.run` loop) are
modelled from the specification and marked as such in their doc comments.
-/

namespace AgentForge

/-- Persistent TODO entity, mirroring `AgentForge.database.models.TodoItem`:
`{id, agent_id, title, description}`. -/
structure TodoItem where
  id : String
  agent_id : String
  title : String
  description : String
deriving Repr, DecidableEq

/-- The persisted table of TODO entities, as seen through a session. -/
abbrev TodoDB := List TodoItem

/-- The row dictionary `{id, title, description}` the tools return. -/
structure TodoDict where
  id : String
  title : String
  description : String
deriving Repr, DecidableEq

/-- The `{success, message}` payload returned by delete. -/
structure ActionResult where
  success : Bool
  message : String
deriving Repr, DecidableEq

/-- The `{success, message, todo?}` payload returned by update. -/
structure UpdateResult where
  success : Bool
  message : String
  todo : Option TodoDict
deriving Repr, DecidableEq

/-- The row filter `filter_by(id=todo_id, agent_id=agent_id)` used by the
update and delete tools. -/
def isMatch (todo_id agent_id : String) (t : TodoItem) : Bool :=
  t.id == todo_id && t.agent_id == agent_id

/-- `session.query(TodoItem).filter_by(id=todo_id, agent_id=agent_id).first()` -/
def queryFirst (db : TodoDB) (todo_id agent_id : String) : Option TodoItem :=
  (db.filter (isMatch todo_id agent_id)).head?

/-- In-place mutation of the first row matching `p` (SQLAlchemy mutates the
ORM object returned by `.first()`). -/
def updateFirst (p : TodoItem → Bool) (f : TodoItem → TodoItem) : TodoDB → TodoDB
  | [] => []
  | t :: ts => if p t then f t :: ts else t :: updateFirst p f ts

/-- `session.delete` of the row returned by `.first()`: removes the first
row matching `p`. -/
def removeFirst (p : TodoItem → Bool) : TodoDB → TodoDB
  | [] => []
  | t :: ts => if p t then ts else t :: removeFirst p ts

/-- `CreateTodoTool.execute(title, description)`. The `uuid.uuid4().hex`
string is passed in as its character sequence `uuidHex` (always 32 lowercase
hexadecimal characters at runtime); the tool takes its first 8 characters.
Returns the result dictionary and the database after `session.add(todo)`. -/
def createTodoExecute (agent_id title description : String) (uuidHex : List Char)
    (db : TodoDB) : TodoDict × TodoDB :=
  let todo_id := "todo_" ++ String.mk (uuidHex.take 8)
  let todo : TodoItem := ⟨todo_id, agent_id, title, description⟩
  (⟨todo.id, todo.title, todo.description⟩, db ++ [todo])

/-- `UpdateTodoTool.execute(todo_id, title, description)`. -/
def updateTodoExecute (agent_id todo_id title description : String)
    (db : TodoDB) : UpdateResult × TodoDB :=
  match queryFirst db todo_id agent_id with
  | some todo =>
      let updated : TodoItem := { todo with title := title, description := description }
      (⟨true, "Todo \x27" ++ title ++ "\x27 updated",
        some ⟨updated.id, updated.title, updated.description⟩⟩,
       updateFirst (isMatch todo_id agent_id)
         (fun t => { t with title := title, description := description }) db)
  | none =>
      (⟨false, "No todo found with ID " ++ todo_id, none⟩, db)

/-- `DeleteTodoTool.execute(todo_id)`. -/
def deleteTodoExecute (agent_id todo_id : String) (db : TodoDB) :
    ActionResult × TodoDB :=
  match queryFirst db todo_id agent_id with
  | some todo =>
      (⟨true, "Todo \x27" ++ todo.title ++ "\x27 deleted"⟩,
       removeFirst (isMatch todo_id agent_id) db)
  | none =>
      (⟨false, "No todo found with ID " ++ todo_id⟩, db)

/-- `GetAllTodosTool.execute()`: `filter_by(agent_id=agent_id).all()`
projected to row dictionaries.  Read-only: the database is unchanged. -/
def getAllTodosExecute (agent_id : String) (db : TodoDB) :
    List TodoDict × TodoDB :=
  ((db.filter (fun t => t.agent_id == agent_id)).map
     (fun t => ⟨t.id, t.title, t.description⟩), db)

/-- A `filter_by(id, agent_id)` query over rows none of which match finds
nothing. -/
theorem queryFirst_eq_none {db : TodoDB} {todo_id agent_id : String}
    (h : ∀ t ∈ db, ¬(t.id = todo_id ∧ t.agent_id = agent_id)) :
    queryFirst db todo_id agent_id = none := by
  unfold queryFirst
  have : db.filter (isMatch todo_id agent_id) = [] := by
    rw [List.filter_eq_nil_iff]
    intro t ht
    simp only [isMatch, Bool.and_eq_true, beq_iff_eq]
    exact fun hc => h t ht ⟨hc.1, hc.2⟩
  rw [this]
  rfl

/-- Unfolding of the row filter. -/
theorem isMatch_iff {todo_id agent_id : String} {t : TodoItem} :
    isMatch todo_id agent_id t = true ↔ t.id = todo_id ∧ t.agent_id = agent_id := by
  simp [isMatch]

/-- When at most one row matches `p`, removing the first match equals
filtering out every match. -/
theorem removeFirst_eq_filter {p : TodoItem → Bool} : ∀ {db : TodoDB},
    db.countP p ≤ 1 → removeFirst p db = db.filter (fun t => ! p t)
  | [], _ => rfl
  | t :: ts, h => by
    rw [List.countP_cons] at h
    by_cases hp : p t = true
    · rw [if_pos hp] at h
      simp only [removeFirst, hp, if_pos, List.filter_cons, Bool.not_true,
        Bool.false_eq_true, if_neg, reduceIte]
      have hz : ts.countP p = 0 := by omega
      have : ∀ a ∈ ts, ¬ p a = true := List.countP_eq_zero.mp hz
      rw [List.filter_eq_self.mpr]
      intro a ha
      simp [this a ha]
    · rw [if_neg hp] at h
      have hp' : p t = false := by simp_all
      simp only [removeFirst, hp', Bool.false_eq_true, if_neg, reduceIte,
        List.filter_cons, Bool.not_false, if_pos]
      rw [removeFirst_eq_filter (by omega)]

/-- The number of matching rows is the length of the filtered table. -/
theorem countP_eq_len_filter (p : TodoItem → Bool) (db : TodoDB) :
    db.countP p = (db.filter p).length := by
  rw [List.countP_eq_length_filter]

/-- Claim C1: persisted todo entities are scoped strictly by `agent_id`:
`get_all_todos` returns only rows whose `agent_id` is the executing agent's
id, and `update_todo`/`delete_todo` invoked on an id owned only by other
agents return `success = false` and leave the table unchanged. -/
theorem todo_scoping_by_agent_id (db : TodoDB) (aid todo_id title description : String)
    (hOwn : ∀ t ∈ db, t.id = todo_id → t.agent_id ≠ aid) :
    (∀ d ∈ (getAllTodosExecute aid db).1,
        ∃ t ∈ db, t.agent_id = aid ∧ d = ⟨t.id, t.title, t.description⟩) ∧
    (updateTodoExecute aid todo_id title description db).1.success = false ∧
    (updateTodoExecute aid todo_id title description db).2 = db ∧
    (deleteTodoExecute aid todo_id db).1.success = false ∧
    (deleteTodoExecute aid todo_id db).2 = db := by
  have hq : queryFirst db todo_id aid = none :=
    queryFirst_eq_none (fun t ht hc => hOwn t ht hc.1 hc.2)
  refine ⟨?_, ?_, ?_, ?_, ?_⟩
  · intro d hd
    simp only [getAllTodosExecute, List.mem_map, List.mem_filter] at hd
    obtain ⟨t, ⟨htdb, hta⟩, rfl⟩ := hd
    exact ⟨t, htdb, by simpa using hta, rfl⟩
  · simp [updateTodoExecute, hq]
  · simp [updateTodoExecute, hq]
  · simp [deleteTodoExecute, hq]
  · simp [deleteTodoExecute, hq]

/-- Witness for `todo_scoping_by_agent_id` at a concrete table owned by
agent "A", queried under agent "B". -/
theorem todo_scoping_by_agent_id_witness :
    (∀ t ∈ ([⟨"todo_11111111", "A", "x", "y"⟩] : TodoDB),
        t.id = "todo_11111111" → t.agent_id ≠ "B") ∧
    ((∀ d ∈ (getAllTodosExecute "B" [⟨"todo_11111111", "A", "x", "y"⟩]).1,
        ∃ t ∈ ([⟨"todo_11111111", "A", "x", "y"⟩] : TodoDB),
          t.agent_id = "B" ∧ d = ⟨t.id, t.title, t.description⟩) ∧
      (updateTodoExecute "B" "todo_11111111" "t2" "d2"
          [⟨"todo_11111111", "A", "x", "y"⟩]).1.success = false ∧
      (updateTodoExecute "B" "todo_11111111" "t2" "d2"
          [⟨"todo_11111111", "A", "x", "y"⟩]).2 = [⟨"todo_11111111", "A", "x", "y"⟩] ∧
      (deleteTodoExecute "B" "todo_11111111" [⟨"todo_11111111", "A", "x", "y"⟩]).1.success = false ∧
      (deleteTodoExecute "B" "todo_11111111" [⟨"todo_11111111", "A", "x", "y"⟩]).2 =
        [⟨"todo_11111111", "A", "x", "y"⟩]) :=
  ⟨by decide, todo_scoping_by_agent_id _ "B" "todo_11111111" "t2" "d2" (by decide)⟩

/-- Claim C2: updating a `todo_id` not present among the executing agent's
rows returns `success = false` with a message containing the id, and leaves
the table unchanged. -/
theorem update_todo_missing_id (db : TodoDB) (aid todo_id title description : String)
    (h : ∀ t ∈ db, ¬(t.id = todo_id ∧ t.agent_id = aid)) :
    (updateTodoExecute aid todo_id title description db).1.success = false ∧
    (∃ pre post,
      (updateTodoExecute aid todo_id title description db).1.message =
        pre ++ todo_id ++ post) ∧
    (updateTodoExecute aid todo_id title description db).2 = db := by
  have hq : queryFirst db todo_id aid = none := queryFirst_eq_none h
  refine ⟨by simp [updateTodoExecute, hq], ⟨"No todo found with ID ", "", ?_⟩,
    by simp [updateTodoExecute, hq]⟩
  simp [updateTodoExecute, hq]

/-- Witness for `update_todo_missing_id` on a table with an unrelated row. -/
theorem update_todo_missing_id_witness :
    (∀ t ∈ ([⟨"todo_aaaaaaaa", "A", "x", "y"⟩] : TodoDB),
        ¬(t.id = "todo_bbbbbbbb" ∧ t.agent_id = "A")) ∧
    ((updateTodoExecute "A" "todo_bbbbbbbb" "t2" "d2"
        [⟨"todo_aaaaaaaa", "A", "x", "y"⟩]).1.success = false ∧
      (∃ pre post,
        (updateTodoExecute "A" "todo_bbbbbbbb" "t2" "d2"
            [⟨"todo_aaaaaaaa", "A", "x", "y"⟩]).1.message =
          pre ++ "todo_bbbbbbbb" ++ post) ∧
      (updateTodoExecute "A" "todo_bbbbbbbb" "t2" "d2"
          [⟨"todo_aaaaaaaa", "A", "x", "y"⟩]).2 = [⟨"todo_aaaaaaaa", "A", "x", "y"⟩]) :=
  ⟨by decide, update_todo_missing_id _ "A" "todo_bbbbbbbb" "t2" "d2" (by decide)⟩

/-- Claim C3: deleting an id present (exactly once) under the executing
agent removes exactly that row and returns `success = true`; a second delete
of the same id returns `success = false` and changes nothing. -/
theorem delete_todo_removes_exactly (db : TodoDB) (aid todo_id : String)
    (h : db.countP (isMatch todo_id aid) = 1) :
    (deleteTodoExecute aid todo_id db).1.success = true ∧
    (deleteTodoExecute aid todo_id db).2 =
      db.filter (fun t => ! isMatch todo_id aid t) ∧
    (deleteTodoExecute aid todo_id (deleteTodoExecute aid todo_id db).2).1.success = false ∧
    (deleteTodoExecute aid todo_id (deleteTodoExecute aid todo_id db).2).2 =
      (deleteTodoExecute aid todo_id db).2 := by
  have hflen : (db.filter (isMatch todo_id aid)).length = 1 := by
    rw [← countP_eq_len_filter]; exact h
  obtain ⟨t, hft⟩ : ∃ t, db.filter (isMatch todo_id aid) = [t] :=
    List.length_eq_one.mp hflen
  have hq : queryFirst db todo_id aid = some t := by
    simp [queryFirst, hft]
  have hdb' : (deleteTodoExecute aid todo_id db).2 =
      db.filter (fun t => ! isMatch todo_id aid t) := by
    simp only [deleteTodoExecute, hq]
    exact removeFirst_eq_filter (by omega)
  have hq2 : queryFirst (db.filter (fun t => ! isMatch todo_id aid t)) todo_id aid = none := by
    apply queryFirst_eq_none
    intro t' ht' hc
    have := (List.mem_filter.mp ht').2
    rw [isMatch_iff.mpr hc] at this
    simp at this
  refine ⟨by simp [deleteTodoExecute, hq], hdb', ?_, ?_⟩
  · rw [hdb']; simp [deleteTodoExecute, hq2]
  · rw [hdb']; simp [deleteTodoExecute, hq2]

/-- Witness for `delete_todo_removes_exactly` on a two-row table. -/
theorem delete_todo_removes_exactly_witness :
    ([⟨"todo_11111111", "A", "x", "y"⟩, ⟨"todo_22222222", "A", "p", "q"⟩] : TodoDB).countP
        (isMatch "todo_11111111" "A") = 1 ∧
    ((deleteTodoExecute "A" "todo_11111111"
        [⟨"todo_11111111", "A", "x", "y"⟩, ⟨"todo_22222222", "A", "p", "q"⟩]).1.success = true ∧
      (deleteTodoExecute "A" "todo_11111111"
          [⟨"todo_11111111", "A", "x", "y"⟩, ⟨"todo_22222222", "A", "p", "q"⟩]).2 =
        ([⟨"todo_11111111", "A", "x", "y"⟩, ⟨"todo_22222222", "A", "p", "q"⟩] : TodoDB).filter
          (fun t => ! isMatch "todo_11111111" "A" t) ∧
      (deleteTodoExecute "A" "todo_11111111"
          (deleteTodoExecute "A" "todo_11111111"
            [⟨"todo_11111111", "A", "x", "y"⟩, ⟨"todo_22222222", "A", "p", "q"⟩]).2).1.success = false ∧
      (deleteTodoExecute "A" "todo_11111111"
          (deleteTodoExecute "A" "todo_11111111"
            [⟨"todo_11111111", "A", "x", "y"⟩, ⟨"todo_22222222", "A", "p", "q"⟩]).2).2 =
        (deleteTodoExecute "A" "todo_11111111"
          [⟨"todo_11111111", "A", "x", "y"⟩, ⟨"todo_22222222", "A", "p", "q"⟩]).2) :=
  ⟨by decide, delete_todo_removes_exactly _ "A" "todo_11111111" (by decide)⟩

/-- Claim C7: the leaf CRUD tools signal expected domain conditions as
structured payloads, never by raising: on every input, update and delete
return either a success payload or the `{success: false, message}`
dictionary (their embeddings are total functions into these two shapes). -/
theorem leaf_tools_return_structured_results (db : TodoDB)
    (aid todo_id title description : String) :
    ((updateTodoExecute aid todo_id title description db).1.success = true ∨
      ((updateTodoExecute aid todo_id title description db).1.success = false ∧
        (updateTodoExecute aid todo_id title description db).1.message =
          "No todo found with ID " ++ todo_id)) ∧
    ((deleteTodoExecute aid todo_id db).1.success = true ∨
      ((deleteTodoExecute aid todo_id db).1.success = false ∧
        (deleteTodoExecute aid todo_id db).1.message =
          "No todo found with ID " ++ todo_id)) := by
  constructor
  · cases hq : queryFirst db todo_id aid with
    | some t => exact Or.inl (by simp [updateTodoExecute, hq])
    | none => exact Or.inr (by simp [updateTodoExecute, hq])
  · cases hq : queryFirst db todo_id aid with
    | some t => exact Or.inl (by simp [deleteTodoExecute, hq])
    | none => exact Or.inr (by simp [deleteTodoExecute, hq])

/-- Claim C4: from an empty table, creating a todo titled "Buy milk" and
listing under the same agent id yields exactly one entry with that title;
listing under a different agent id yields no entries. -/
theorem create_then_get_all_scoped (aid aid2 description : String)
    (uuidHex : List Char) (hne : aid2 ≠ aid) :
    (getAllTodosExecute aid (createTodoExecute aid "Buy milk" description uuidHex []).2).1 =
      [⟨"todo_" ++ String.mk (uuidHex.take 8), "Buy milk", description⟩] ∧
    (getAllTodosExecute aid2 (createTodoExecute aid "Buy milk" description uuidHex []).2).1 =
      [] := by
  have hdb : (createTodoExecute aid "Buy milk" description uuidHex []).2 =
      [⟨"todo_" ++ String.mk (uuidHex.take 8), aid, "Buy milk", description⟩] := rfl
  rw [hdb]
  constructor
  · simp [getAllTodosExecute]
  · simp only [getAllTodosExecute]
    rw [List.filter_cons_of_neg]
    · rfl
    · exact fun hc => hne (eq_of_beq hc).symm

/-- Witness for `create_then_get_all_scoped` at concrete agent ids. -/
theorem create_then_get_all_scoped_witness :
    ("456" : String) ≠ "123" ∧
    ((getAllTodosExecute "123"
        (createTodoExecute "123" "Buy milk" "2L" "a1b2c3d4e5f60718".data []).2).1 =
      [⟨"todo_" ++ String.mk ("a1b2c3d4e5f60718".data.take 8), "Buy milk", "2L"⟩] ∧
    (getAllTodosExecute "456"
        (createTodoExecute "123" "Buy milk" "2L" "a1b2c3d4e5f60718".data []).2).1 = []) :=
  ⟨by decide, create_then_get_all_scoped "123" "456" "2L" "a1b2c3d4e5f60718".data (by decide)⟩

/-- Lowercase-hexadecimal alphabet of Python's `uuid.uuid4().hex`. -/
def isLowerHexChar (c : Char) : Bool :=
  (decide (48 ≤ c.toNat) && decide (c.toNat ≤ 57)) ||
  (decide (97 ≤ c.toNat) && decide (c.toNat ≤ 102))

/-- Claim C10: `create_todo` echoes `title` and `description` exactly, its
`id` is `todo_` followed by exactly 8 lowercase hexadecimal characters, and
the persisted row carries the executing agent's id. -/
theorem create_todo_result_shape (db : TodoDB) (aid title description : String)
    (uuidHex : List Char) (hlen : 8 ≤ uuidHex.length)
    (hhex : ∀ c ∈ uuidHex, isLowerHexChar c = true) :
    (createTodoExecute aid title description uuidHex db).1.title = title ∧
    (createTodoExecute aid title description uuidHex db).1.description = description ∧
    (∃ s : List Char,
      (createTodoExecute aid title description uuidHex db).1.id =
        "todo_" ++ String.mk s ∧ s.length = 8 ∧ ∀ c ∈ s, isLowerHexChar c = true) ∧
    (createTodoExecute aid title description uuidHex db).2 =
      db ++ [⟨(createTodoExecute aid title description uuidHex db).1.id,
              aid, title, description⟩] := by
  refine ⟨rfl, rfl, ⟨uuidHex.take 8, rfl, ?_, ?_⟩, rfl⟩
  · rw [List.length_take]
    omega
  · exact fun c hc => hhex c (List.take_subset 8 uuidHex hc)

/-- Witness for `create_todo_result_shape` at a concrete uuid hex string. -/
theorem create_todo_result_shape_witness :
    8 ≤ "a1b2c3d4e5f60718".data.length ∧
    (∀ c ∈ "a1b2c3d4e5f60718".data, isLowerHexChar c = true) ∧
    ((createTodoExecute "123" "Buy milk" "2L" "a1b2c3d4e5f60718".data []).1.title = "Buy milk" ∧
      (createTodoExecute "123" "Buy milk" "2L" "a1b2c3d4e5f60718".data []).1.description = "2L" ∧
      (∃ s : List Char,
        (createTodoExecute "123" "Buy milk" "2L" "a1b2c3d4e5f60718".data []).1.id =
          "todo_" ++ String.mk s ∧ s.length = 8 ∧ ∀ c ∈ s, isLowerHexChar c = true) ∧
      (createTodoExecute "123" "Buy milk" "2L" "a1b2c3d4e5f60718".data []).2 =
        [] ++ [⟨(createTodoExecute "123" "Buy milk" "2L" "a1b2c3d4e5f60718".data []).1.id,
                "123", "Buy milk", "2L"⟩]) :=
  ⟨by decide, by decide,
    create_todo_result_shape [] "123" "Buy milk" "2L" "a1b2c3d4e5f60718".data
      (by decide) (by decide)⟩

/-- A conversation message.  `plain` covers user/assistant/system/tool text
messages; `toolCall`/`toolResult` are the causally paired tool-invocation
messages identified by a shared call id. -/
inductive Msg where
  | plain (role content : String)
  | toolCall (callId content : String)
  | toolResult (callId content : String)
deriving Repr, DecidableEq

/-- The TODO-domain system prompt `WHO_AM_I` of
`src/AgentForge/tools/todo_tool.py`. -/
def WHO_AM_I : String :=
  "You are a TODO list management assistant. Always respond in User language!\n\nFor creating a todo:\n1. Extract title and description from user request\n2. Use create_todo tool with extracted data\n\nFor updating a todo:\n1. First use get_all_todos to get list of all todos\n2. Find todo whose title best matches user request\n3. Use update_todo with ID of found todo and new data\n\nFor deleting a todo:\n1. First use get_all_todos to get list of all todos\n2. Find todo whose title best matches user request\n3. Use delete_todo with ID of found todo\n\nFor viewing todos:\n1. Use get_all_todos\n2. Format todo list for easy reading"

/-- An orchestrator's construction-time state: identity, language-model
client handle (an opaque type parameter), message history, system prompt,
and the registered tool set (tools identified by their `name` attribute).
Mirrors the `Agent(client, agent_id, message_storage, who_am_i, tools)`
constructor call sites in the source. -/
structure AgentState (Client : Type) where
  client : Client
  agent_id : String
  message_storage : List Msg
  who_am_i : String
  tools : List String
deriving Repr, DecidableEq

/-- `Agent.get_id`. -/
def AgentState.get_id {Client : Type} (a : AgentState Client) : String :=
  a.agent_id

/-- `TodoAgentTool.on_register(parent_agent)`: builds the private nested
orchestrator once, with the parent's client and agent id, a fresh
`MessageStorage()`, the `WHO_AM_I` prompt, and the four leaf CRUD tools. -/
def todoAgentOnRegister {Client : Type} (parent_agent : AgentState Client) :
    AgentState Client :=
  { client := parent_agent.client
    agent_id := parent_agent.get_id
    message_storage := []
    who_am_i := WHO_AM_I
    tools := ["create_todo", "update_todo", "delete_todo", "get_all_todos"] }

/-- `TodoAgentTool.execute(request)`: forwards the request to the private
orchestrator's `run` and returns its answer.  The `run` loop itself lives in
framework code outside the repository snapshot, so it is abstracted as a
function argument. -/
def todoAgentExecute {Client : Type} (run : AgentState Client → String → String)
    (agent : AgentState Client) (request : String) : String :=
  run agent request

/-- Claim C5: the nested TODO orchestrator is built at registration time
with its parent's agent id and client, a fresh empty message history, the
TODO system prompt, and exactly the four leaf CRUD tools; `execute` returns
exactly the private orchestrator's `run` on the request. -/
theorem todo_agent_tool_delegation {Client : Type}
    (run : AgentState Client → String → String)
    (parent : AgentState Client) (request : String) :
    (todoAgentOnRegister parent).agent_id = parent.agent_id ∧
    (todoAgentOnRegister parent).client = parent.client ∧
    (todoAgentOnRegister parent).message_storage = [] ∧
    (todoAgentOnRegister parent).who_am_i = WHO_AM_I ∧
    (todoAgentOnRegister parent).tools =
      ["create_todo", "update_todo", "delete_todo", "get_all_todos"] ∧
    todoAgentExecute run (todoAgentOnRegister parent) request =
      run (todoAgentOnRegister parent) request :=
  ⟨rfl, rfl, rfl, rfl, rfl, rfl⟩

/-- Outcome of one tool body execution: a normal return or a raised
exception (asyncio cancellation surfaces at the wrapper as a raised
`CancelledError`, so it follows the same path). -/
inductive ExecOutcome (R : Type) where
  | ok (value : R)
  | raised (error : String)
deriving Repr, DecidableEq

/-- Audit counters for one unit-of-work: how often it was acquired,
committed, rolled back and released during the wrapped call. -/
structure UoWTrace where
  acquired : Nat
  committed : Nat
  rolledBack : Nat
  released : Nat
deriving Repr, DecidableEq

/-- Result of running a tool body under the transactional scope: the
body's outcome, the table state that was persisted, and the trace. -/
structure SessionRun (R : Type) where
  outcome : ExecOutcome R
  persisted : TodoDB
  trace : UoWTrace
deriving Repr, DecidableEq

/-- Modelled from the spec: the decorator `with_session`
(`AgentForge.database.db`) is not part of the repository snapshot — only
its use sites on the CRUD tools are.  Per §4.2 it acquires a unit-of-work,
injects it as the extra `session` argument of the body, commits the body's
changes when the body returns normally, rolls them back (persisting the
original table) when the body raises, and releases the unit-of-work exactly
once on either path. -/
def with_session {R : Type} (db : TodoDB)
    (body : TodoDB → ExecOutcome (R × TodoDB)) : SessionRun R :=
  match body db with
  | .ok (r, db2) => ⟨.ok r, db2, ⟨1, 1, 0, 1⟩⟩
  | .raised e => ⟨.raised e, db, ⟨1, 0, 1, 1⟩⟩

/-- Claim C6: the transactional scope acquires a unit-of-work before the
body runs and passes it the session, commits on normal return, rolls back
on raise (no persisted change), and on every exit path acquires and
releases the unit-of-work exactly once; wrapping an actual CRUD execute
persists exactly that execute's table update. -/
theorem with_session_transactional {R : Type} (db : TodoDB)
    (body : TodoDB → ExecOutcome (R × TodoDB)) :
    (∀ r db2, body db = .ok (r, db2) →
      (with_session db body).persisted = db2 ∧
      (with_session db body).outcome = .ok r ∧
      (with_session db body).trace = ⟨1, 1, 0, 1⟩) ∧
    (∀ e, body db = .raised e →
      (with_session db body).persisted = db ∧
      (with_session db body).trace = ⟨1, 0, 1, 1⟩) ∧
    (with_session db body).trace.acquired = 1 ∧
    (with_session db body).trace.released = 1 ∧
    (∀ aid todo_id title description,
      (with_session db
        (fun session => .ok (updateTodoExecute aid todo_id title description session))).persisted =
      (updateTodoExecute aid todo_id title description db).2) := by
  refine ⟨?_, ?_, ?_, ?_, ?_⟩
  · intro r db2 hb
    simp [with_session, hb]
  · intro e hb
    simp [with_session, hb]
  · cases hb : body db with
    | ok v => obtain ⟨r, db2⟩ := v; simp [with_session, hb]
    | raised e => simp [with_session, hb]
  · cases hb : body db with
    | ok v => obtain ⟨r, db2⟩ := v; simp [with_session, hb]
    | raised e => simp [with_session, hb]
  · intro aid todo_id title description
    simp [with_session]

/-- Witness for `with_session_transactional`: a raising body leaves the
concrete table unchanged and releases the unit-of-work once. -/
theorem with_session_transactional_witness :
    (with_session ([⟨"todo_11111111", "A", "x", "y"⟩] : TodoDB)
        (fun _ => (.raised "CancelledError" : ExecOutcome (ActionResult × TodoDB)))).persisted =
      [⟨"todo_11111111", "A", "x", "y"⟩] ∧
    (with_session ([⟨"todo_11111111", "A", "x", "y"⟩] : TodoDB)
        (fun _ => (.raised "CancelledError" : ExecOutcome (ActionResult × TodoDB)))).trace =
      ⟨1, 0, 1, 1⟩ :=
  (with_session_transactional [⟨"todo_11111111", "A", "x", "y"⟩]
    (fun _ => (.raised "CancelledError" : ExecOutcome (ActionResult × TodoDB)))).2.1
    "CancelledError" rfl

/-- A language-model capability response: a final answer or a batch of
tool-invocation requests `(tool_name, arguments)` (§6). -/
inductive ModelResponse where
  | finalText (answer : String)
  | toolCalls (calls : List (String × String))
deriving Repr, DecidableEq

/-- Terminal failure conditions of a `run` call (§7). -/
inductive FailCondition where
  | toolLoopExceeded
deriving Repr, DecidableEq

/-- Terminal state of one `run` call: `Responding` with the final answer,
or `Failed` with its condition (§4.5). -/
inductive RunOutcome where
  | responding (answer : String)
  | failed (condition : FailCondition)
deriving Repr, DecidableEq

/-- Modelled from the spec: the Orchestrator `run` loop (§4.5) is framework
code not in the repository snapshot.  Each round submits the history to the
language-model capability; a final answer terminates in `Responding`, a
batch of tool calls is dispatched in order, appended to the history as tool
messages, and the loop continues with one fewer round in its budget;
exhausting the budget terminates in `Failed`/`ToolLoopExceeded`.  Total by
construction: the round budget strictly decreases. -/
def runLoop (capability : List Msg → ModelResponse)
    (dispatchTool : String → String → String) :
    Nat → List Msg → RunOutcome
  | 0, _ => .failed .toolLoopExceeded
  | rounds + 1, history =>
    match capability history with
    | .finalText answer => .responding answer
    | .toolCalls calls =>
        runLoop capability dispatchTool rounds
          (history ++ calls.map (fun c => Msg.toolResult c.1 (dispatchTool c.1 c.2)))

/-- Modelled from the spec: `Agent.run(request)` appends the request as a
user message and drives the loop under the fixed iteration cap. -/
def agentRun (capability : List Msg → ModelResponse)
    (dispatchTool : String → String → String)
    (maxIterations : Nat) (request : String) : RunOutcome :=
  runLoop capability dispatchTool maxIterations [Msg.plain "user" request]

/-- The loop under a capability that never produces a final answer ends in
`Failed`/`ToolLoopExceeded`, whatever the budget and starting history. -/
theorem runLoop_all_tool_calls
    (capability : List Msg → ModelResponse)
    (dispatchTool : String → String → String)
    (h : ∀ history, ∃ calls, capability history = .toolCalls calls) :
    ∀ (rounds : Nat) (history : List Msg),
      runLoop capability dispatchTool rounds history = .failed .toolLoopExceeded := by
  intro rounds
  induction rounds with
  | zero => intro history; rfl
  | succ n ih =>
    intro history
    obtain ⟨calls, hc⟩ := h history
    rw [runLoop, hc]
    exact ih _

/-- Claim C9: the QueryingModel↔DispatchingTools cycle is bounded by the
iteration cap: under every capability, `run` is a total function into a
terminal state, and under a pathological capability that always requests
more tool calls it terminates in `Failed`/`ToolLoopExceeded` instead of
looping. -/
theorem run_bounded_tool_loop
    (capability : List Msg → ModelResponse)
    (dispatchTool : String → String → String)
    (maxIterations : Nat) (request : String)
    (h : ∀ history, ∃ calls, capability history = .toolCalls calls) :
    agentRun capability dispatchTool maxIterations request =
      .failed .toolLoopExceeded :=
  runLoop_all_tool_calls capability dispatchTool h maxIterations _

/-- Witness for `run_bounded_tool_loop`: a capability that always asks for
one more `create_todo` call fails with `ToolLoopExceeded` under a cap of 5. -/
theorem run_bounded_tool_loop_witness :
    (∀ history : List Msg,
      ∃ calls, (fun _ : List Msg => ModelResponse.toolCalls [("create_todo", "x")]) history =
        .toolCalls calls) ∧
    agentRun (fun _ => ModelResponse.toolCalls [("create_todo", "x")])
        (fun _ _ => "ok") 5 "loop forever" = .failed .toolLoopExceeded :=
  ⟨fun _ => ⟨[("create_todo", "x")], rfl⟩,
    run_bounded_tool_loop (fun _ => ModelResponse.toolCalls [("create_todo", "x")])
      (fun _ _ => "ok") 5 "loop forever" (fun _ => ⟨[("create_todo", "x")], rfl⟩)⟩

/-- Does `m` carry the tool call with id `cid`? -/
def isToolCallOf (cid : String) : Msg → Bool
  | .toolCall c _ => c == cid
  | _ => false

/-- Does `m` carry the tool result with id `cid`? -/
def isToolResOf (cid : String) : Msg → Bool
  | .toolResult c _ => c == cid
  | _ => false

/-- Modelled from the spec: the `MessageStorage` class
(`AgentForge.core.message_storage`) is not part of the repository snapshot —
only its constructor calls `MessageStorage()` / `MessageStorage(max_size=20)`
are.  Per §3/§4.4 eviction removes from the oldest end, and the policy keeps
causally paired tool-call/tool-result messages together: evicting one half
of a pair evicts its partner with it. -/
def evictOldest : List Msg → List Msg
  | [] => []
  | .plain _ _ :: rest => rest
  | .toolCall cid _ :: rest => rest.filter (fun m => ! isToolResOf cid m)
  | .toolResult cid _ :: rest => rest.filter (fun m => ! isToolCallOf cid m)

/-- Modelled from the spec: evict from the oldest end until the history is
within the configured maximum (fuelled: each eviction removes at least one
message, so `fuel ≥ length` always suffices). -/
def evictLoop (maxSize : Nat) : Nat → List Msg → List Msg
  | 0, h => h
  | fuel + 1, h =>
    if h.length ≤ maxSize then h else evictLoop maxSize fuel (evictOldest h)

/-- Modelled from the spec: `MessageStorage.append` — add the message at
the new end, then evict from the oldest end while over the maximum. -/
def appendMsg (maxSize : Nat) (h : List Msg) (m : Msg) : List Msg :=
  evictLoop maxSize (h.length + 1) (h ++ [m])

/-- Number of tool-call messages with id `cid` in the history. -/
def nCalls (cid : String) (h : List Msg) : Nat := h.countP (isToolCallOf cid)

/-- Number of tool-result messages with id `cid` in the history. -/
def nRes (cid : String) (h : List Msg) : Nat := h.countP (isToolResOf cid)

/-- The pairing invariant of §3: a tool call is retained exactly when its
paired tool result is. -/
def wellPaired (h : List Msg) : Prop :=
  ∀ cid, 0 < nCalls cid h ↔ 0 < nRes cid h

/-- Call ids identify at most one call and one result in the history. -/
def uniqCallIds (h : List Msg) : Prop :=
  ∀ cid, nCalls cid h ≤ 1 ∧ nRes cid h ≤ 1

/-- The pairing invariant away from one designated call id. -/
def pairedExcept (cid : String) (h : List Msg) : Prop :=
  ∀ c, c ≠ cid → (0 < nCalls c h ↔ 0 < nRes c h)

/-- Filtering away all `q`-messages leaves none. -/
theorem countP_filter_not_self (q : Msg → Bool) (l : List Msg) :
    (l.filter (fun m => ! q m)).countP q = 0 := by
  induction l with
  | nil => rfl
  | cons a l ih =>
    by_cases hq : q a = true
    · simp [List.filter_cons, hq, ih]
    · simp [List.filter_cons, hq, List.countP_cons, ih]

/-- Filtering away `q`-messages does not change the count of a disjoint
predicate `p`. -/
theorem countP_filter_of_disjoint {p q : Msg → Bool}
    (hpq : ∀ m, p m = true → q m = false) (l : List Msg) :
    (l.filter (fun m => ! q m)).countP p = l.countP p := by
  induction l with
  | nil => rfl
  | cons a l ih =>
    by_cases hq : q a = true
    · have hp : p a = false := by
        cases hpa : p a with
        | false => rfl
        | true => rw [hpq a hpa] at hq; exact absurd hq (by simp)
      simp [List.filter_cons, hq, List.countP_cons, hp, ih]
    · simp [List.filter_cons, hq, List.countP_cons, ih]

/-- A call message is never a result message. -/
theorem isToolCallOf_toolResOf_disjoint (c cid : String) :
    ∀ m, isToolCallOf c m = true → isToolResOf cid m = false := by
  intro m hm
  cases m <;> simp_all [isToolCallOf, isToolResOf]

/-- A result message is never a call message. -/
theorem isToolResOf_toolCallOf_disjoint (c cid : String) :
    ∀ m, isToolResOf c m = true → isToolCallOf cid m = false := by
  intro m hm
  cases m <;> simp_all [isToolCallOf, isToolResOf]

/-- Results of distinct call ids are distinct messages. -/
theorem isToolResOf_ne_disjoint {c cid : String} (hne : c ≠ cid) :
    ∀ m, isToolResOf c m = true → isToolResOf cid m = false := by
  intro m hm
  cases m with
  | toolResult c' cnt =>
    simp only [isToolResOf, beq_iff_eq] at hm
    simp only [isToolResOf]
    rw [hm]
    exact beq_eq_false_iff_ne.mpr hne
  | plain r cnt => rfl
  | toolCall c' cnt => rfl

/-- Calls of distinct call ids are distinct messages. -/
theorem isToolCallOf_ne_disjoint {c cid : String} (hne : c ≠ cid) :
    ∀ m, isToolCallOf c m = true → isToolCallOf cid m = false := by
  intro m hm
  cases m with
  | toolCall c' cnt =>
    simp only [isToolCallOf, beq_iff_eq] at hm
    simp only [isToolCallOf]
    rw [hm]
    exact beq_eq_false_iff_ne.mpr hne
  | plain r cnt => rfl
  | toolResult c' cnt => rfl

/-- Eviction only removes messages, in place. -/
theorem evictOldest_sublist (h : List Msg) : (evictOldest h).Sublist h := by
  match h with
  | [] => exact List.Sublist.refl []
  | .plain r c :: rest => exact List.sublist_cons_self _ _
  | .toolCall cid c :: rest =>
    exact (List.filter_sublist rest).trans (List.sublist_cons_self _ _)
  | .toolResult cid c :: rest =>
    exact (List.filter_sublist rest).trans (List.sublist_cons_self _ _)

/-- The eviction loop only removes messages, in place. -/
theorem evictLoop_sublist (n fuel : Nat) :
    ∀ h : List Msg, (evictLoop n fuel h).Sublist h := by
  induction fuel with
  | zero => intro h; exact List.Sublist.refl h
  | succ f ih =>
    intro h
    rw [evictLoop]
    by_cases hle : h.length ≤ n
    · rw [if_pos hle]
    · rw [if_neg hle]
      exact (ih (evictOldest h)).trans (evictOldest_sublist h)

/-- `append` preserves the existing order and only removes old messages. -/
theorem appendMsg_sublist (n : Nat) (h : List Msg) (m : Msg) :
    (appendMsg n h m).Sublist (h ++ [m]) :=
  evictLoop_sublist n (h.length + 1) (h ++ [m])

/-- Evicting from a non-empty history strictly shrinks it. -/
theorem evictOldest_length_lt {h : List Msg} (hne : h ≠ []) :
    (evictOldest h).length < h.length := by
  match h with
  | [] => exact absurd rfl hne
  | .plain r c :: rest => simp [evictOldest]
  | .toolCall cid c :: rest =>
    have := List.length_filter_le (fun m => ! isToolResOf cid m) rest
    simp only [evictOldest, List.length_cons]
    omega
  | .toolResult cid c :: rest =>
    have := List.length_filter_le (fun m => ! isToolCallOf cid m) rest
    simp only [evictOldest, List.length_cons]
    omega

/-- With fuel at least the history length, the eviction loop lands within
the maximum. -/
theorem evictLoop_length_le (n : Nat) : ∀ (fuel : Nat) (h : List Msg),
    h.length ≤ fuel → (evictLoop n fuel h).length ≤ n := by
  intro fuel
  induction fuel with
  | zero =>
    intro h hf
    have : h = [] := List.eq_nil_of_length_eq_zero (by omega)
    subst this
    simp [evictLoop]
  | succ f ih =>
    intro h hf
    rw [evictLoop]
    by_cases hle : h.length ≤ n
    · rw [if_pos hle]; exact hle
    · rw [if_neg hle]
      apply ih
      have hne : h ≠ [] := by
        intro he; subst he; simp at hle
      have := evictOldest_length_lt hne
      omega

/-- After any append the history is within the configured maximum. -/
theorem appendMsg_length_le (n : Nat) (h : List Msg) (m : Msg) :
    (appendMsg n h m).length ≤ n :=
  evictLoop_length_le n (h.length + 1) (h ++ [m]) (by simp)

/-- Unique call ids survive any sub-history. -/
theorem uniqCallIds_sublist {h h' : List Msg} (hs : h'.Sublist h)
    (hu : uniqCallIds h) : uniqCallIds h' := fun cid =>
  ⟨le_trans (hs.countP_le _) (hu cid).1, le_trans (hs.countP_le _) (hu cid).2⟩

@[simp]
theorem isToolCallOf_plain (cid r c : String) :
    isToolCallOf cid (.plain r c) = false := rfl

@[simp]
theorem isToolCallOf_call (cid c' cnt : String) :
    isToolCallOf cid (.toolCall c' cnt) = (c' == cid) := rfl

@[simp]
theorem isToolCallOf_result (cid c' cnt : String) :
    isToolCallOf cid (.toolResult c' cnt) = false := rfl

@[simp]
theorem isToolResOf_plain (cid r c : String) :
    isToolResOf cid (.plain r c) = false := rfl

@[simp]
theorem isToolResOf_call (cid c' cnt : String) :
    isToolResOf cid (.toolCall c' cnt) = false := rfl

@[simp]
theorem isToolResOf_result (cid c' cnt : String) :
    isToolResOf cid (.toolResult c' cnt) = (c' == cid) := rfl

/-- Pair-preserving eviction keeps the pairing invariant: removing an
oldest message removes its partner with it, and every other pair is left
intact. -/
theorem evictOldest_wellPaired : ∀ {h : List Msg}, wellPaired h → uniqCallIds h →
    wellPaired (evictOldest h)
  | [], hw, _ => hw
  | .plain r c :: rest, hw, _ => by
    intro cid
    have hc := hw cid
    have h1 : nCalls cid (Msg.plain r c :: rest) = nCalls cid rest := by
      simp [nCalls, List.countP_cons]
    have h2 : nRes cid (Msg.plain r c :: rest) = nRes cid rest := by
      simp [nRes, List.countP_cons]
    rw [h1, h2] at hc
    exact hc
  | .toolCall c0 cnt :: rest, hw, hu => by
    intro cid
    show 0 < nCalls cid (rest.filter (fun m => ! isToolResOf c0 m)) ↔
      0 < nRes cid (rest.filter (fun m => ! isToolResOf c0 m))
    have hcall : nCalls cid (rest.filter (fun m => ! isToolResOf c0 m)) =
        nCalls cid rest :=
      countP_filter_of_disjoint (isToolCallOf_toolResOf_disjoint cid c0) rest
    by_cases hcc : cid = c0
    · subst hcc
      have hhead : nCalls cid (Msg.toolCall cid cnt :: rest) = nCalls cid rest + 1 := by
        simp [nCalls, List.countP_cons]
      have hrest0 : nCalls cid rest = 0 := by
        have := (hu cid).1
        omega
      have hres0 : nRes cid (rest.filter (fun m => ! isToolResOf cid m)) = 0 :=
        countP_filter_not_self _ _
      rw [hcall, hrest0, hres0]
    · have hne : (c0 == cid) = false := beq_eq_false_iff_ne.mpr (fun he => hcc he.symm)
      have hres : nRes cid (rest.filter (fun m => ! isToolResOf c0 m)) =
          nRes cid rest :=
        countP_filter_of_disjoint (isToolResOf_ne_disjoint hcc) rest
      have h1 : nCalls cid (Msg.toolCall c0 cnt :: rest) = nCalls cid rest := by
        simp [nCalls, List.countP_cons, hne]
      have h2 : nRes cid (Msg.toolCall c0 cnt :: rest) = nRes cid rest := by
        simp [nRes, List.countP_cons]
      have hc := hw cid
      rw [h1, h2] at hc
      rw [hcall, hres]
      exact hc
  | .toolResult c0 cnt :: rest, hw, hu => by
    intro cid
    show 0 < nCalls cid (rest.filter (fun m => ! isToolCallOf c0 m)) ↔
      0 < nRes cid (rest.filter (fun m => ! isToolCallOf c0 m))
    have hres : nRes cid (rest.filter (fun m => ! isToolCallOf c0 m)) =
        nRes cid rest :=
      countP_filter_of_disjoint (isToolResOf_toolCallOf_disjoint cid c0) rest
    by_cases hcc : cid = c0
    · subst hcc
      have hhead : nRes cid (Msg.toolResult cid cnt :: rest) = nRes cid rest + 1 := by
        simp [nRes, List.countP_cons]
      have hrest0 : nRes cid rest = 0 := by
        have := (hu cid).2
        omega
      have hcall0 : nCalls cid (rest.filter (fun m => ! isToolCallOf cid m)) = 0 :=
        countP_filter_not_self _ _
      rw [hres, hrest0, hcall0]
    · have hne : (c0 == cid) = false := beq_eq_false_iff_ne.mpr (fun he => hcc he.symm)
      have hcall : nCalls cid (rest.filter (fun m => ! isToolCallOf c0 m)) =
          nCalls cid rest :=
        countP_filter_of_disjoint (isToolCallOf_ne_disjoint hcc) rest
      have h1 : nCalls cid (Msg.toolResult c0 cnt :: rest) = nCalls cid rest := by
        simp [nCalls, List.countP_cons]
      have h2 : nRes cid (Msg.toolResult c0 cnt :: rest) = nRes cid rest := by
        simp [nRes, List.countP_cons, hne]
      have hc := hw cid
      rw [h1, h2] at hc
      rw [hcall, hres]
      exact hc

/-- The eviction loop keeps the pairing invariant. -/
theorem evictLoop_wellPaired (n fuel : Nat) : ∀ h : List Msg,
    wellPaired h → uniqCallIds h → wellPaired (evictLoop n fuel h) := by
  induction fuel with
  | zero => intro h hw _; exact hw
  | succ f ih =>
    intro h hw hu
    rw [evictLoop]
    by_cases hle : h.length ≤ n
    · rw [if_pos hle]; exact hw
    · rw [if_neg hle]
      exact ih (evictOldest h) (evictOldest_wellPaired hw hu)
        (uniqCallIds_sublist (evictOldest_sublist h) hu)

/-- A list with a last element is non-empty. -/
theorem ne_nil_of_getLast_eq_some {α : Type _} {l : List α} {a : α}
    (h : l.getLast? = some a) : l ≠ [] := by
  intro he
  subst he
  simp at h

/-- The last element is a member. -/
theorem mem_of_getLast_eq_some {α : Type _} : ∀ {l : List α} {a : α},
    l.getLast? = some a → a ∈ l
  | [], a, h => by simp at h
  | [x], a, h => by
    rw [List.getLast?_singleton] at h
    rw [Option.some_inj] at h
    subst h
    exact List.mem_singleton_self _
  | x :: y :: t, a, h => by
    rw [List.getLast?_cons_cons] at h
    exact List.mem_cons_of_mem x (mem_of_getLast_eq_some h)

/-- Prepending to a non-empty list keeps its last element. -/
theorem getLast_cons_of_ne_nil {α : Type _} {l : List α} (a : α) (h : l ≠ []) :
    (a :: l).getLast? = l.getLast? := by
  match l with
  | [] => exact absurd rfl h
  | b :: t => exact List.getLast?_cons_cons

/-- Filtering keeps the last element when it satisfies the filter. -/
theorem getLast_filter_of_pos {α : Type _} {p : α → Bool} :
    ∀ {l : List α} {a : α}, l.getLast? = some a → p a = true →
      (l.filter p).getLast? = some a
  | [], a, h, _ => by simp at h
  | [x], a, h, hp => by
    rw [List.getLast?_singleton] at h
    rw [Option.some_inj] at h
    subst h
    simp [List.filter_singleton, hp]
  | x :: y :: t, a, h, hp => by
    rw [List.getLast?_cons_cons] at h
    have ih := getLast_filter_of_pos h hp
    rw [List.filter_cons]
    by_cases hx : p x = true
    · rw [if_pos hx]
      rw [getLast_cons_of_ne_nil x (ne_nil_of_getLast_eq_some ih)]
      exact ih
    · rw [if_neg hx]
      exact ih

/-- The phase invariant while a tool call waits for its paired result: the
history ends with the pending call, whose id has exactly one call and no
result yet; all other ids are fully paired.  Pair-preserving eviction keeps
this invariant on histories of length at least 2 (the pending call at the
new end is never the evicted oldest message there). -/
theorem evictOldest_pending {cid cnt : String} {h : List Msg}
    (hlen : 2 ≤ h.length) (hpe : pairedExcept cid h) (hres : nRes cid h = 0)
    (hcall : nCalls cid h = 1) (hu : uniqCallIds h)
    (hlast : h.getLast? = some (.toolCall cid cnt)) :
    pairedExcept cid (evictOldest h) ∧ nRes cid (evictOldest h) = 0 ∧
    nCalls cid (evictOldest h) = 1 ∧ uniqCallIds (evictOldest h) ∧
    (evictOldest h).getLast? = some (.toolCall cid cnt) := by
  match h with
  | [] => simp at hlen
  | [m] => simp at hlen
  | m :: rest =>
    have hrestne : rest ≠ [] := by
      intro he
      subst he
      simp at hlen
    have hlastrest : rest.getLast? = some (.toolCall cid cnt) := by
      rw [getLast_cons_of_ne_nil m hrestne] at hlast
      exact hlast
    have hcallmem : nCalls cid rest ≥ 1 := by
      have hm := mem_of_getLast_eq_some hlastrest
      have : 0 < rest.countP (isToolCallOf cid) :=
        List.countP_pos_iff.mpr ⟨_, hm, by simp⟩
      simpa [nCalls] using this
    have hur : uniqCallIds (evictOldest (m :: rest)) :=
      uniqCallIds_sublist (evictOldest_sublist _) hu
    match m with
    | .plain r c =>
      have h1 : ∀ c', nCalls c' (Msg.plain r c :: rest) = nCalls c' rest := by
        intro c'; simp [nCalls, List.countP_cons]
      have h2 : ∀ c', nRes c' (Msg.plain r c :: rest) = nRes c' rest := by
        intro c'; simp [nRes, List.countP_cons]
      refine ⟨?_, ?_, ?_, hur, ?_⟩
      · intro c' hc'
        have := hpe c' hc'
        rw [h1, h2] at this
        exact this
      · show nRes cid rest = 0
        rw [← h2]; exact hres
      · show nCalls cid rest = 1
        rw [← h1]; exact hcall
      · exact hlastrest
    | .toolCall c0 cnt0 =>
      have hc0ne : c0 ≠ cid := by
        intro he
        subst he
        have hhead : nCalls c0 (Msg.toolCall c0 cnt0 :: rest) = nCalls c0 rest + 1 := by
          simp [nCalls, List.countP_cons]
        omega
      have hne : (c0 == cid) = false := beq_eq_false_iff_ne.mpr hc0ne
      have hcallf : ∀ c', nCalls c' (rest.filter (fun x => ! isToolResOf c0 x)) =
          nCalls c' rest := by
        intro c'
        exact countP_filter_of_disjoint (isToolCallOf_toolResOf_disjoint c' c0) rest
      refine ⟨?_, ?_, ?_, hur, ?_⟩
      · intro c' hc'
        show 0 < nCalls c' (rest.filter (fun x => ! isToolResOf c0 x)) ↔
          0 < nRes c' (rest.filter (fun x => ! isToolResOf c0 x))
        by_cases hcc : c' = c0
        · subst hcc
          have hhead : nCalls c' (Msg.toolCall c' cnt0 :: rest) = nCalls c' rest + 1 := by
            simp [nCalls, List.countP_cons]
          have hr0 : nCalls c' rest = 0 := by
            have := (hu c').1
            omega
          have : nRes c' (rest.filter (fun x => ! isToolResOf c' x)) = 0 :=
            countP_filter_not_self _ _
          rw [hcallf, hr0, this]
        · have hresf : nRes c' (rest.filter (fun x => ! isToolResOf c0 x)) =
              nRes c' rest :=
            countP_filter_of_disjoint (isToolResOf_ne_disjoint hcc) rest
          have hnec' : (c0 == c') = false :=
            beq_eq_false_iff_ne.mpr (fun he => hcc he.symm)
          have h1 : nCalls c' (Msg.toolCall c0 cnt0 :: rest) = nCalls c' rest := by
            simp [nCalls, List.countP_cons, hnec']
          have h2 : nRes c' (Msg.toolCall c0 cnt0 :: rest) = nRes c' rest := by
            simp [nRes, List.countP_cons]
          have := hpe c' hc'
          rw [h1, h2] at this
          rw [hcallf, hresf]
          exact this
      · have hresf : nRes cid (rest.filter (fun x => ! isToolResOf c0 x)) =
            nRes cid rest :=
          countP_filter_of_disjoint (isToolResOf_ne_disjoint (fun he => hc0ne he.symm)) rest
        have h2 : nRes cid (Msg.toolCall c0 cnt0 :: rest) = nRes cid rest := by
          simp [nRes, List.countP_cons]
        rw [evictOldest, hresf, ← h2]
        exact hres
      · have h1 : nCalls cid (Msg.toolCall c0 cnt0 :: rest) = nCalls cid rest := by
          simp [nCalls, List.countP_cons, hne]
        rw [evictOldest, hcallf, ← h1]
        exact hcall
      · show (rest.filter (fun x => ! isToolResOf c0 x)).getLast? =
          some (.toolCall cid cnt)
        exact getLast_filter_of_pos hlastrest (by simp)
    | .toolResult c0 cnt0 =>
      have hc0ne : c0 ≠ cid := by
        intro he
        subst he
        have hhead : nRes c0 (Msg.toolResult c0 cnt0 :: rest) = nRes c0 rest + 1 := by
          simp [nRes, List.countP_cons]
        omega
      have hne : (c0 == cid) = false := beq_eq_false_iff_ne.mpr hc0ne
      have hresf : ∀ c', nRes c' (rest.filter (fun x => ! isToolCallOf c0 x)) =
          nRes c' rest := by
        intro c'
        exact countP_filter_of_disjoint (isToolResOf_toolCallOf_disjoint c' c0) rest
      refine ⟨?_, ?_, ?_, hur, ?_⟩
      · intro c' hc'
        show 0 < nCalls c' (rest.filter (fun x => ! isToolCallOf c0 x)) ↔
          0 < nRes c' (rest.filter (fun x => ! isToolCallOf c0 x))
        by_cases hcc : c' = c0
        · subst hcc
          have hhead : nRes c' (Msg.toolResult c' cnt0 :: rest) = nRes c' rest + 1 := by
            simp [nRes, List.countP_cons]
          have hr0 : nRes c' rest = 0 := by
            have := (hu c').2
            omega
          have : nCalls c' (rest.filter (fun x => ! isToolCallOf c' x)) = 0 :=
            countP_filter_not_self _ _
          rw [hresf, hr0, this]
        · have hcallf : nCalls c' (rest.filter (fun x => ! isToolCallOf c0 x)) =
              nCalls c' rest :=
            countP_filter_of_disjoint (isToolCallOf_ne_disjoint hcc) rest
          have hnec' : (c0 == c') = false :=
            beq_eq_false_iff_ne.mpr (fun he => hcc he.symm)
          have h1 : nCalls c' (Msg.toolResult c0 cnt0 :: rest) = nCalls c' rest := by
            simp [nCalls, List.countP_cons]
          have h2 : nRes c' (Msg.toolResult c0 cnt0 :: rest) = nRes c' rest := by
            simp [nRes, List.countP_cons, hnec']
          have := hpe c' hc'
          rw [h1, h2] at this
          rw [hcallf, hresf]
          exact this
      · have h2 : nRes cid (Msg.toolResult c0 cnt0 :: rest) = nRes cid rest := by
          simp [nRes, List.countP_cons, hne]
        rw [evictOldest, hresf, ← h2]
        exact hres
      · have hcallf : nCalls cid (rest.filter (fun x => ! isToolCallOf c0 x)) =
            nCalls cid rest :=
          countP_filter_of_disjoint
            (isToolCallOf_ne_disjoint (fun he => hc0ne he.symm)) rest
        have h1 : nCalls cid (Msg.toolResult c0 cnt0 :: rest) = nCalls cid rest := by
          simp [nCalls, List.countP_cons]
        rw [evictOldest, hcallf, ← h1]
        exact hcall
      · show (rest.filter (fun x => ! isToolCallOf c0 x)).getLast? =
          some (.toolCall cid cnt)
        have hkeep : (! isToolCallOf c0 (Msg.toolCall cid cnt)) = true := by
          simp only [isToolCallOf_call, Bool.not_eq_true']
          exact beq_eq_false_iff_ne.mpr (fun he => hc0ne he.symm)
        exact getLast_filter_of_pos hlastrest hkeep

/-- The eviction loop keeps the pending-call invariant when the maximum is
at least 1 (the pending call at the new end is then never evicted). -/
theorem evictLoop_pending (n : Nat) (hn : 1 ≤ n) (cid cnt : String) :
    ∀ (fuel : Nat) (h : List Msg), pairedExcept cid h → nRes cid h = 0 →
      nCalls cid h = 1 → uniqCallIds h → h.getLast? = some (.toolCall cid cnt) →
      pairedExcept cid (evictLoop n fuel h) ∧ nRes cid (evictLoop n fuel h) = 0 ∧
      nCalls cid (evictLoop n fuel h) = 1 ∧ uniqCallIds (evictLoop n fuel h) ∧
      (evictLoop n fuel h).getLast? = some (.toolCall cid cnt) := by
  intro fuel
  induction fuel with
  | zero => intro h hpe hres hcall hu hlast; exact ⟨hpe, hres, hcall, hu, hlast⟩
  | succ f ih =>
    intro h hpe hres hcall hu hlast
    rw [evictLoop]
    by_cases hle : h.length ≤ n
    · rw [if_pos hle]; exact ⟨hpe, hres, hcall, hu, hlast⟩
    · rw [if_neg hle]
      have hlen2 : 2 ≤ h.length := by omega
      obtain ⟨p1, p2, p3, p4, p5⟩ := evictOldest_pending hlen2 hpe hres hcall hu hlast
      exact ih _ p1 p2 p3 p4 p5

/-- Call count over appending one message at the new end. -/
theorem nCalls_append_one (cid : String) (h : List Msg) (m : Msg) :
    nCalls cid (h ++ [m]) = nCalls cid h + (if isToolCallOf cid m then 1 else 0) := by
  simp [nCalls, List.countP_append, List.countP_cons]

/-- Result count over appending one message at the new end. -/
theorem nRes_append_one (cid : String) (h : List Msg) (m : Msg) :
    nRes cid (h ++ [m]) = nRes cid h + (if isToolResOf cid m then 1 else 0) := by
  simp [nRes, List.countP_append, List.countP_cons]

/-- Appending a plain message preserves pairing and id uniqueness. -/
theorem appendMsg_plain_preserves (n : Nat) (h : List Msg) (r c : String)
    (hw : wellPaired h) (hu : uniqCallIds h) :
    wellPaired (appendMsg n h (.plain r c)) ∧
    uniqCallIds (appendMsg n h (.plain r c)) := by
  have hw1 : wellPaired (h ++ [Msg.plain r c]) := by
    intro cid
    rw [nCalls_append_one, nRes_append_one]
    simpa using hw cid
  have hu1 : uniqCallIds (h ++ [Msg.plain r c]) := by
    intro cid
    rw [nCalls_append_one, nRes_append_one]
    simpa using hu cid
  exact ⟨evictLoop_wellPaired n (h.length + 1) _ hw1 hu1,
    uniqCallIds_sublist (evictLoop_sublist n (h.length + 1) _) hu1⟩

/-- Appending a tool call with a fresh id leaves the history in the
pending-call state (and within bounds). -/
theorem appendMsg_toolCall_pending (n : Nat) (hn : 1 ≤ n) (h : List Msg)
    (cid cnt : String) (hw : wellPaired h) (hu : uniqCallIds h)
    (hfc : nCalls cid h = 0) (hfr : nRes cid h = 0) :
    pairedExcept cid (appendMsg n h (.toolCall cid cnt)) ∧
    nRes cid (appendMsg n h (.toolCall cid cnt)) = 0 ∧
    nCalls cid (appendMsg n h (.toolCall cid cnt)) = 1 ∧
    uniqCallIds (appendMsg n h (.toolCall cid cnt)) ∧
    (appendMsg n h (.toolCall cid cnt)).length ≤ n := by
  have hpe1 : pairedExcept cid (h ++ [Msg.toolCall cid cnt]) := by
    intro c' hc'
    have hne : (cid == c') = false := beq_eq_false_iff_ne.mpr (fun he => hc' he.symm)
    rw [nCalls_append_one, nRes_append_one]
    simpa [hne] using hw c'
  have hres1 : nRes cid (h ++ [Msg.toolCall cid cnt]) = 0 := by
    rw [nRes_append_one]
    simpa using hfr
  have hcall1 : nCalls cid (h ++ [Msg.toolCall cid cnt]) = 1 := by
    rw [nCalls_append_one]
    simp [hfc]
  have hu1 : uniqCallIds (h ++ [Msg.toolCall cid cnt]) := by
    intro c'
    rw [nCalls_append_one, nRes_append_one]
    by_cases hcc : cid = c'
    · subst hcc
      constructor
      · simp [hfc]
      · simpa using (hu cid).2
    · have hne : (cid == c') = false := beq_eq_false_iff_ne.mpr hcc
      constructor
      · simpa [hne] using (hu c').1
      · simpa using (hu c').2
  have hlast1 : (h ++ [Msg.toolCall cid cnt]).getLast? = some (.toolCall cid cnt) :=
    List.getLast?_concat h
  obtain ⟨p1, p2, p3, p4, p5⟩ :=
    evictLoop_pending n hn cid cnt (h.length + 1) _ hpe1 hres1 hcall1 hu1 hlast1
  exact ⟨p1, p2, p3, p4, appendMsg_length_le n h _⟩

/-- Appending the paired tool result to a pending history restores the
pairing invariant. -/
theorem appendMsg_toolResult_restores (n : Nat) (h1 : List Msg) (cid cnt2 : String)
    (hpe : pairedExcept cid h1) (hres : nRes cid h1 = 0)
    (hcall : nCalls cid h1 = 1) (hu : uniqCallIds h1) :
    wellPaired (appendMsg n h1 (.toolResult cid cnt2)) ∧
    uniqCallIds (appendMsg n h1 (.toolResult cid cnt2)) := by
  have hw2 : wellPaired (h1 ++ [Msg.toolResult cid cnt2]) := by
    intro c'
    rw [nCalls_append_one, nRes_append_one]
    by_cases hcc : c' = cid
    · subst hcc
      simp [hcall, hres]
    · have hne : (cid == c') = false := beq_eq_false_iff_ne.mpr (fun he => hcc he.symm)
      simpa [hne] using hpe c' hcc
  have hu2 : uniqCallIds (h1 ++ [Msg.toolResult cid cnt2]) := by
    intro c'
    rw [nCalls_append_one, nRes_append_one]
    by_cases hcc : c' = cid
    · subst hcc
      constructor
      · simpa using (hu c').1
      · simp [hres]
    · have hne : (cid == c') = false := beq_eq_false_iff_ne.mpr (fun he => hcc he.symm)
      constructor
      · simpa using (hu c').1
      · simpa [hne] using (hu c').2
  exact ⟨evictLoop_wellPaired n (h1.length + 1) _ hw2 hu2,
    uniqCallIds_sublist (evictLoop_sublist n (h1.length + 1) _) hu2⟩

/-- One conversation-building step: either a plain message, or a tool call
followed by its paired tool result appended in sequence. -/
inductive HistEvent where
  | plainMsg (role content : String)
  | exchange (callId callContent resultContent : String)
deriving Repr, DecidableEq

/-- The call id introduced by an event, if any. -/
def eventCallId : HistEvent → Option String
  | .plainMsg _ _ => none
  | .exchange cid _ _ => some cid

/-- Apply one event to the bounded history via `append`. -/
def appendEvent (n : Nat) (h : List Msg) : HistEvent → List Msg
  | .plainMsg r c => appendMsg n h (.plain r c)
  | .exchange cid c1 c2 =>
      appendMsg n (appendMsg n h (.toolCall cid c1)) (.toolResult cid c2)

/-- The history built from an event sequence on an empty storage. -/
def runEvents (n : Nat) (events : List HistEvent) : List Msg :=
  events.foldl (appendEvent n) []

/-- A fresh call id stays fresh across an append of an unrelated message. -/
theorem counts_zero_after_appendMsg {cid : String} {h : List Msg} {m : Msg} (n : Nat)
    (hc : nCalls cid h = 0) (hr : nRes cid h = 0)
    (hmc : isToolCallOf cid m = false) (hmr : isToolResOf cid m = false) :
    nCalls cid (appendMsg n h m) = 0 ∧ nRes cid (appendMsg n h m) = 0 := by
  have hs := appendMsg_sublist n h m
  have h1 : nCalls cid (h ++ [m]) = 0 := by
    rw [nCalls_append_one, hmc]
    simp [hc]
  have h2 : nRes cid (h ++ [m]) = 0 := by
    rw [nRes_append_one, hmr]
    simp [hr]
  have l1 : nCalls cid (appendMsg n h m) ≤ nCalls cid (h ++ [m]) := hs.countP_le _
  have l2 : nRes cid (appendMsg n h m) ≤ nRes cid (h ++ [m]) := hs.countP_le _
  omega

/-- Folding events over a well-formed bounded history keeps the pairing
invariant and the size bound. -/
theorem runEvents_fold_invariant (n : Nat) (hn : 1 ≤ n) :
    ∀ (events : List HistEvent) (h : List Msg),
      wellPaired h → uniqCallIds h → h.length ≤ n →
      (∀ cid ∈ events.filterMap eventCallId, nCalls cid h = 0 ∧ nRes cid h = 0) →
      (events.filterMap eventCallId).Nodup →
      wellPaired (events.foldl (appendEvent n) h) ∧
      (events.foldl (appendEvent n) h).length ≤ n := by
  intro events
  induction events with
  | nil => intro h hw hu hlen _ _; exact ⟨hw, hlen⟩
  | cons e evs ih =>
    intro h hw hu hlen hfresh hnodup
    rw [List.foldl_cons]
    match e with
    | .plainMsg r c =>
      have hfm : ((HistEvent.plainMsg r c) :: evs).filterMap eventCallId =
          evs.filterMap eventCallId := by
        simp [List.filterMap_cons, eventCallId]
      rw [hfm] at hfresh hnodup
      obtain ⟨hw', hu'⟩ := appendMsg_plain_preserves n h r c hw hu
      refine ih (appendMsg n h (.plain r c)) hw' hu'
        (appendMsg_length_le n h _) ?_ hnodup
      intro cid hcid
      exact counts_zero_after_appendMsg n (hfresh cid hcid).1 (hfresh cid hcid).2 rfl rfl
    | .exchange cid c1 c2 =>
      have hfm : ((HistEvent.exchange cid c1 c2) :: evs).filterMap eventCallId =
          cid :: evs.filterMap eventCallId := by
        simp [List.filterMap_cons, eventCallId]
      rw [hfm] at hfresh hnodup
      have hfresh0 := hfresh cid (List.mem_cons_self cid _)
      obtain ⟨p1, p2, p3, p4, p5⟩ :=
        appendMsg_toolCall_pending n hn h cid c1 hw hu hfresh0.1 hfresh0.2
      obtain ⟨hw2, hu2⟩ :=
        appendMsg_toolResult_restores n (appendMsg n h (.toolCall cid c1)) cid c2
          p1 p2 p3 p4
      have hnotin : cid ∉ evs.filterMap eventCallId := (List.nodup_cons.mp hnodup).1
      have hnodup' : (evs.filterMap eventCallId).Nodup := (List.nodup_cons.mp hnodup).2
      refine ih _ hw2 hu2 (appendMsg_length_le n _ _) ?_ hnodup'
      intro c' hc'
      have hcne : c' ≠ cid := fun he => hnotin (he ▸ hc')
      have h0 := hfresh c' (List.mem_cons_of_mem _ hc')
      have hne1 : isToolCallOf c' (Msg.toolCall cid c1) = false := by
        rw [isToolCallOf_call]
        exact beq_eq_false_iff_ne.mpr (fun he => hcne he.symm)
      have hne2 : isToolResOf c' (Msg.toolResult cid c2) = false := by
        rw [isToolResOf_result]
        exact beq_eq_false_iff_ne.mpr (fun he => hcne he.symm)
      obtain ⟨q1, q2⟩ := counts_zero_after_appendMsg n h0.1 h0.2 hne1 rfl
      exact counts_zero_after_appendMsg n q1 q2 rfl hne2

/-- Claim C8: over every sequence of appends (plain messages, and tool
call/result exchanges with distinct call ids) on a storage configured with
maximum size N ≥ 1, the history length never exceeds N, appending only ever
drops messages (eviction removes from the oldest end: `evictOldest` acts on
the list head), and no tool-call message is retained without its paired
tool-result message, nor vice versa. -/
theorem message_history_bounded_and_paired (n : Nat) (events : List HistEvent)
    (hn : 1 ≤ n) (hids : (events.filterMap eventCallId).Nodup) :
    (runEvents n events).length ≤ n ∧ wellPaired (runEvents n events) ∧
    (∀ (h : List Msg) (m : Msg), (appendMsg n h m).Sublist (h ++ [m])) := by
  have hwn : wellPaired ([] : List Msg) := by intro cid; simp [nCalls, nRes]
  have hun : uniqCallIds ([] : List Msg) := by intro cid; simp [nCalls, nRes]
  obtain ⟨hw, hlen⟩ := runEvents_fold_invariant n hn events [] hwn hun (by simp)
    (fun cid _ => ⟨rfl, rfl⟩) hids
  exact ⟨hlen, hw, fun h m => appendMsg_sublist n h m⟩

/-- Witness for `message_history_bounded_and_paired`: three events (two
exchanges around a plain message) on a storage of maximum size 2. -/
theorem message_history_bounded_and_paired_witness :
    1 ≤ 2 ∧
    (([HistEvent.exchange "c1" "a" "b", HistEvent.plainMsg "user" "hi",
        HistEvent.exchange "c2" "d" "e"].filterMap eventCallId).Nodup) ∧
    ((runEvents 2 [HistEvent.exchange "c1" "a" "b", HistEvent.plainMsg "user" "hi",
        HistEvent.exchange "c2" "d" "e"]).length ≤ 2 ∧
      wellPaired (runEvents 2 [HistEvent.exchange "c1" "a" "b",
        HistEvent.plainMsg "user" "hi", HistEvent.exchange "c2" "d" "e"]) ∧
      (∀ (h : List Msg) (m : Msg), (appendMsg 2 h m).Sublist (h ++ [m]))) :=
  ⟨by decide, by decide,
    message_history_bounded_and_paired 2
      [HistEvent.exchange "c1" "a" "b", HistEvent.plainMsg "user" "hi",
        HistEvent.exchange "c2" "d" "e"] (by decide) (by decide)⟩

end AgentForge
